import Mathlib

/-!
Verification development for the NostrX sync tool (`src/nostrx.py`).

The Python source is shallowly embedded below:
* the content transformer `extract_media_urls` is modelled at the
  character-list level, including the `https?://\S+` regex scan,
  Python's `str.replace(old, "")` and `str.strip()`;
* the sync engine `SyncTool.run` is modelled as a pure fold over the
  fetched event batch, with external effects (relay connection, fetch,
  media download, media upload, tweet creation, state save) recorded in
  a trace of `Call`s and their outcomes supplied by a `Net` oracle.
-/

namespace NostrX

/-- Whitespace characters: the set matched by Python's `\s` (and stripped
by `str.strip`) on the ASCII range; `\S` is its complement. -/
def isSpaceChar (c : Char) : Bool :=
  c = ' ' || c = '\t' || c = '\n' || c = '\r' || c = '\x0b' || c = '\x0c'

/-- MEDIA_EXTENSIONS from `src/nostrx.py` line 57. -/
def MEDIA_EXTENSIONS : List String :=
  [".jpg", ".jpeg", ".png", ".gif", ".mp4", ".mov"]

/-- Splits a character list into its maximal leading run of non-whitespace
characters and the remainder: the action of the greedy `\S+` (resp. `\S*`)
at the current position. -/
def takeNonSpace : List Char → List Char × List Char
  | [] => ([], [])
  | c :: cs =>
    if isSpaceChar c then ([], c :: cs)
    else
      let p := takeNonSpace cs
      (c :: p.1, p.2)

theorem takeNonSpace_append (l : List Char) :
    (takeNonSpace l).1 ++ (takeNonSpace l).2 = l := by
  induction l with
  | nil => rfl
  | cons c cs ih =>
    by_cases h : isSpaceChar c <;> simp [takeNonSpace, h, ih]

theorem takeNonSpace_snd_length (l : List Char) :
    (takeNonSpace l).2.length ≤ l.length := by
  conv_rhs => rw [← takeNonSpace_append l]
  simp

theorem takeNonSpace_snd_lt {l : List Char}
    (h : ((takeNonSpace l).1).isEmpty = false) :
    (takeNonSpace l).2.length < l.length := by
  have h1 : (takeNonSpace l).1.length + (takeNonSpace l).2.length = l.length := by
    conv_rhs => rw [← takeNonSpace_append l]
    simp
  have h2 : (takeNonSpace l).1.length ≥ 1 := by
    cases hh : (takeNonSpace l).1 with
    | nil => rw [hh] at h; simp at h
    | cons a as => simp [hh]
  omega

/-- Matching of the literal part `https?://` of the URL regex at the head
of the input: matches exactly when the input starts with `https://` or
with `http://`, returning the matched scheme. -/
def schemeAt (l : List Char) : Option (List Char) :=
  if ("https://".data).isPrefixOf l then some ("https://".data)
  else if ("http://".data).isPrefixOf l then some ("http://".data)
  else none

theorem schemeAt_isPrefixOf {l sch : List Char} (h : schemeAt l = some sch) :
    sch.isPrefixOf l = true := by
  unfold schemeAt at h
  by_cases h1 : ("https://".data).isPrefixOf l
  · simp [h1] at h; simpa [← h] using h1
  · by_cases h2 : ("http://".data).isPrefixOf l
    · simp [h1, h2] at h; simpa [← h] using h2
    · simp [h1, h2] at h

/-- Embedding of `re.findall(r'https?://\S+', content)` (line 94),
structurally recursive on a fuel bound so that it evaluates inside the
kernel: the leftmost, non-overlapping matches of the pattern, scanned
left to right; each match is the scheme followed by the maximal
non-empty run of non-whitespace characters, and scanning resumes after
the match.  Each step strictly shortens the remaining input, so a fuel
equal to the input length never runs out (`findUrlsAux_congr`). -/
def findUrlsAux : Nat → List Char → List (List Char)
  | _, [] => []
  | 0, _ :: _ => []
  | fuel + 1, c :: cs =>
    match schemeAt (c :: cs) with
    | some sch =>
      if ((takeNonSpace ((c :: cs).drop sch.length)).1).isEmpty then
        findUrlsAux fuel cs
      else
        (sch ++ (takeNonSpace ((c :: cs).drop sch.length)).1) ::
          findUrlsAux fuel ((takeNonSpace ((c :: cs).drop sch.length)).2)
    | none => findUrlsAux fuel cs

/-- The URL scan at its adequate fuel. -/
def findUrls (l : List Char) : List (List Char) := findUrlsAux l.length l

/-- Any fuel at least the input length gives the same scan: the fuel is
only a termination device, not part of the semantics. -/
theorem findUrlsAux_congr :
    ∀ (f1 f2 : Nat) (l : List Char), l.length ≤ f1 → l.length ≤ f2 →
      findUrlsAux f1 l = findUrlsAux f2 l
  | _, _, [], _, _ => by simp [findUrlsAux]
  | 0, _, c :: cs, h1, _ => by simp at h1
  | _ + 1, 0, c :: cs, _, h2 => by simp at h2
  | f1 + 1, f2 + 1, c :: cs, h1, h2 => by
    simp only [List.length_cons] at h1 h2
    rw [findUrlsAux, findUrlsAux]
    cases hs : schemeAt (c :: cs) with
    | none => exact findUrlsAux_congr f1 f2 cs (by omega) (by omega)
    | some sch =>
      by_cases hp : ((takeNonSpace ((c :: cs).drop sch.length)).1).isEmpty
      · simp only [hp, if_true]
        exact findUrlsAux_congr f1 f2 cs (by omega) (by omega)
      · simp only [hp, Bool.false_eq_true, if_false]
        have hlt := takeNonSpace_snd_lt
          (show ((takeNonSpace ((c :: cs).drop sch.length)).1).isEmpty = false
            by simpa using hp)
        have hd : ((c :: cs).drop sch.length).length ≤ cs.length + 1 := by simp
        rw [findUrlsAux_congr f1 f2 _ (by omega) (by omega)]

/-- Embedding of Python's `s.replace(pat, "")` for non-empty `pat`,
structurally recursive on a fuel bound so that it evaluates inside the
kernel: deletes the leftmost occurrence, continues scanning after it,
and so on (non-overlapping left-to-right removal).  For empty `pat` the
input is returned unchanged (Python would return the same string too,
since the replacement is also empty).  Each step strictly shortens the
input, so a fuel equal to the input length never runs out. -/
def replaceAllAux (pat : List Char) : Nat → List Char → List Char
  | _, [] => []
  | 0, l => l
  | fuel + 1, c :: cs =>
    if ¬pat.isEmpty ∧ pat.isPrefixOf (c :: cs) then
      replaceAllAux pat fuel ((c :: cs).drop pat.length)
    else c :: replaceAllAux pat fuel cs

/-- The replacement scan at its adequate fuel. -/
def replaceAll (pat l : List Char) : List Char := replaceAllAux pat l.length l

/-- Embedding of Python's `str.strip()`: removes leading and trailing
whitespace. -/
def stripChars (l : List Char) : List Char :=
  ((l.dropWhile isSpaceChar).reverse.dropWhile isSpaceChar).reverse

/-- The media test of line 99: the lowercased URL string ends with one of
the `MEDIA_EXTENSIONS`.  Note the test is on the suffix of the whole URL
string, not of its path component. -/
def isMediaUrl (url : List Char) : Bool :=
  MEDIA_EXTENSIONS.any fun ext => ext.data.isSuffixOf (url.map Char.toLower)

/-- Body of the `for url in found_urls` loop of lines 96-103: when the
URL passes the media test, append it to the media list and remove it
from the running text (all occurrences, followed by a strip); otherwise
leave the accumulator alone. -/
def emuStep (acc : List Char × List (List Char)) (url : List Char) :
    List Char × List (List Char) :=
  if isMediaUrl url then (stripChars (replaceAll url acc.1), acc.2 ++ [url])
  else acc

/-- Embedding of `extract_media_urls` (lines 87-105): finds all URL
matches and folds the loop body over them, starting from the original
content and an empty media list. -/
def extract_media_urls (content : List Char) : List Char × List (List Char) :=
  List.foldl emuStep (content, []) (findUrls content)

/-- The persisted checkpoint (`sync_state.json`): `last_synced_timestamp`
and `synced_event_ids`, as loaded by `load_state` and written by
`save_state`. -/
structure SyncState where
  last_synced_timestamp : Nat
  synced_event_ids : List String
deriving Repr, DecidableEq

/-- Keeps the last `n` elements of a list, in order: Python's `l[-n:]`. -/
def takeLast (n : Nat) (l : List α) : List α := l.drop (l.length - n)

/-- Embedding of `save_state` (lines 76-81): truncates the id history to
the last 1000 entries before persisting; the in-memory state is mutated
the same way.  (The file write itself is the `Call.saveState` trace
entry emitted at the call sites.) -/
def save_state (st : SyncState) : SyncState :=
  { st with synced_event_ids := takeLast 1000 st.synced_event_ids }

/-- A fetched Nostr event as used by `SyncTool.run`: id (hex), creation
time in seconds, text content, and tags (each a vector of strings). -/
structure Event where
  id : String
  created_at : Nat
  content : String
  tags : List (List String)
deriving Repr, DecidableEq

/-- The reply test of lines 220-225: some tag's vector is non-empty with
first element `e` or `reply`. -/
def isReply (e : Event) : Bool :=
  e.tags.any fun t =>
    match t with
    | [] => false
    | x :: _ => x = "e" || x = "reply"

/-- Configuration as derived from the environment: monitored npubs,
relay list, and the four Twitter credentials (`None` when the
environment variable is unset; Python's truthiness also treats an empty
string as missing, which this model folds into `Option.none`). -/
structure Config where
  npubs : List String
  relays : List String
  apiKey : Option String
  apiSecret : Option String
  accessToken : Option String
  accessSecret : Option String

/-- The test of `setup_twitter` (line 142): all four credentials present.
Both `twitter_client` (v1.1, media upload) and `twitter_v2` (tweet
creation) are set exactly when this holds; otherwise the tool runs in
dry-run mode. -/
def twitterConfigured (cfg : Config) : Bool :=
  cfg.apiKey.isSome && cfg.apiSecret.isSome &&
    cfg.accessToken.isSome && cfg.accessSecret.isSome

/-- Oracle for the outcomes of external calls: media download (URL to
local temp path, `none` on failure), media upload (path to media id,
`none` when the upload raises), and tweet creation (event id to success;
`false` means `create_tweet` raises). -/
structure Net where
  download : String → Option String
  upload : String → Option Nat
  tweet : String → Bool

/-- Network and persistence actions performed by a run, in order.  Trace
entries are tagged with the event being processed (`upload`,
`createTweet`) and with the call outcome (`createTweet`'s final `Bool`),
so that properties of a run can be stated on its trace. -/
inductive Call where
  | addRelay : String → Call
  | clientConnect : Call
  | fetch : Nat → Call
  | download : String → Call
  | upload : String → String → Call
  | createTweet : String → String → List Nat → Nat → Bool → Call
  | saveState : SyncState → Call
  | dryRun : String → Call
deriving Repr, DecidableEq

/-- Loop state of the `for event in event_list` loop: the in-memory
`self.state` plus the local `new_last_ts` variable (line 210). -/
structure LoopSt where
  state : SyncState
  newLastTs : Nat
deriving Repr, DecidableEq

/-- The state update performed immediately after a successful
`create_tweet` (lines 271-277): append the id, advance `new_last_ts` and
`last_synced_timestamp` only when this event is newer, then `save_state`
(which truncates the id list to the last 1000). -/
def recordPublished (st : SyncState) (nlt : Nat) (id : String) (ts : Nat) :
    SyncState × Nat :=
  let ids := st.synced_event_ids ++ [id]
  if ts > nlt then
    (save_state { last_synced_timestamp := ts, synced_event_ids := ids }, ts)
  else
    (save_state { last_synced_timestamp := st.last_synced_timestamp,
                  synced_event_ids := ids }, nlt)

/-- The Twitter character-limit truncation of lines 261-262. -/
def truncateText (l : List Char) : List Char :=
  if l.length > 280 then l.take 277 ++ ("...".data) else l

/-- One iteration of the media download/upload loop of lines 245-255:
attempt the download (a `Call.download`); on success remember the temp
file and, when the v1.1 client is configured, attempt the upload (a
`Call.upload`), yielding a media id exactly when the upload does not
raise.  Returns the contribution of this URL to
(media ids, temp files, calls). -/
def mediaStep (cfg : Config) (net : Net) (eid : String) (url : List Char) :
    List Nat × List String × List Call :=
  let urlS := String.mk url
  match net.download urlS with
  | none => ([], [], [Call.download urlS])
  | some path =>
    if twitterConfigured cfg then
      match net.upload path with
      | some mid => ([mid], [path], [Call.download urlS, Call.upload eid path])
      | none => ([], [path], [Call.download urlS, Call.upload eid path])
    else ([], [path], [Call.download urlS])

/-- The media download/upload loop of lines 240-255: each URL's
contribution to the accumulated media ids, temp files and calls, in
order. -/
def processMedia (cfg : Config) (net : Net) (eid : String) :
    List (List Char) → List Nat × List String × List Call
  | [] => ([], [], [])
  | url :: rest =>
    let h := mediaStep cfg net eid url
    let r := processMedia cfg net eid rest
    (h.1 ++ r.1, h.2.1 ++ r.2.1, h.2.2 ++ r.2.2)

/-- One iteration of the event loop (lines 212-295): duplicate skip,
reply skip, content transformation, media download/upload, then either
the tweet attempt (recording and saving state on success, leaving the
state untouched when `create_tweet` raises) or the dry-run branch
(which never touches the state). -/
def processEvent (cfg : Config) (net : Net) (ls : LoopSt) (e : Event) :
    LoopSt × List Call :=
  if ls.state.synced_event_ids.contains e.id then (ls, [])
  else if isReply e then (ls, [])
  else
    let ex := extract_media_urls e.content.data
    let md := processMedia cfg net e.id ex.2
    if twitterConfigured cfg then
      let text := truncateText ex.1
      let ok := net.tweet e.id
      let tweetCall := Call.createTweet e.id (String.mk text) md.1 e.created_at ok
      if ok then
        let rec1 := recordPublished ls.state ls.newLastTs e.id e.created_at
        (⟨rec1.1, rec1.2⟩, md.2.2 ++ [tweetCall, Call.saveState rec1.1])
      else (ls, md.2.2 ++ [tweetCall])
    else (ls, md.2.2 ++ [Call.dryRun e.id])

/-- The event loop itself: left-to-right processing of the (sorted)
batch, concatenating the per-event traces. -/
def runFold (cfg : Config) (net : Net) : LoopSt → List Event → LoopSt × List Call
  | ls, [] => (ls, [])
  | ls, e :: rest =>
    let r := processEvent cfg net ls e
    let rr := runFold cfg net r.1 rest
    (rr.1, r.2 ++ rr.2)

/-- The sort key comparison of line 202: ascending creation time. -/
def eventLe (a b : Event) : Bool := a.created_at ≤ b.created_at

/-- Stable insertion of an event into an already sorted list: the event
goes after every element whose key is less than or equal to its own, so
elements with equal keys keep their original relative order. -/
def insertEv (e : Event) : List Event → List Event
  | [] => [e]
  | x :: xs => if eventLe x e then x :: insertEv e xs else e :: x :: xs

/-- Line 202: `event_list.sort(key=lambda x: x.created_at().as_secs())` —
Python's `list.sort` is a stable ascending sort by the key, and a stable
sort by a fixed key is extensionally unique, so the stable insertion
sort below computes exactly it. -/
def sortEvents (l : List Event) : List Event :=
  l.foldl (fun acc e => insertEv e acc) []

/-- Embedding of `SyncTool.run` (lines 169-297): dry-run setup is silent;
an empty npub list aborts before any network call; otherwise the relays
are added and connected, events since `last_synced_timestamp + 1` are
fetched (the fetched batch is the `fetched` argument, the relays' reply
to the `Call.fetch` request), sorted ascending by creation time, and
processed one by one.  Returns the final in-memory state and the trace. -/
def run (cfg : Config) (net : Net) (st0 : SyncState) (fetched : List Event) :
    SyncState × List Call :=
  if cfg.npubs.isEmpty then (st0, [])
  else
    let setupCalls := cfg.relays.map Call.addRelay ++ [Call.clientConnect]
    let preCalls := setupCalls ++ [Call.fetch (st0.last_synced_timestamp + 1)]
    let evs := sortEvents fetched
    if evs.isEmpty then (st0, preCalls)
    else
      let r := runFold cfg net ⟨st0, st0.last_synced_timestamp⟩ evs
      (r.1.state, preCalls ++ r.2)

/-- Python's `s.split(",")` on a character list. -/
def splitOnComma : List Char → List (List Char)
  | [] => [[]]
  | c :: cs =>
    if c = ',' then [] :: splitOnComma cs
    else
      match splitOnComma cs with
      | [] => [[c]]
      | p :: ps => (c :: p) :: ps

/-- Lines 32-33: `MONITORED_NPUBS` parsed from the `NOSTR_NPUBS`
environment variable — split on commas, strip each piece, drop empties. -/
def MONITORED_NPUBS_of (env : String) : List String :=
  (((splitOnComma env.data).map stripChars).filter fun l => !l.isEmpty).map
    String.mk

/-- Lines 40-45: the built-in default relay list. -/
def DEFAULT_RELAYS : List String :=
  ["wss://relay.damus.io", "wss://nos.lol", "wss://relay.nostr.band",
   "wss://relay.primal.net"]

/-- Lines 36-45: `NOSTR_RELAYS` — parsed from the `NOSTR_RELAYS`
environment variable when it is non-empty, the defaults otherwise.  Note
a non-empty variable whose pieces all strip to nothing (e.g. `","`)
yields an empty relay list. -/
def NOSTR_RELAYS_of (env : String) : List String :=
  if env = "" then DEFAULT_RELAYS
  else
    (((splitOnComma env.data).map stripChars).filter fun l => !l.isEmpty).map
      String.mk

/-- Iterated checkpoint recording, used to state the eviction property
of the spec's `recordPublished` contract over a sequence of items. -/
def recordMany : SyncState → Nat → List (String × Nat) → SyncState × Nat
  | st, nlt, [] => (st, nlt)
  | st, nlt, p :: ps =>
    let r := recordPublished st nlt p.1 p.2
    recordMany r.1 r.2 ps

/-- Classifier: trace entries that are tweet-creation attempts. -/
def isTweetCall : Call → Bool
  | .createTweet _ _ _ _ _ => true
  | _ => false

/-- Classifier: trace entries that are media-upload attempts. -/
def isUploadCall : Call → Bool
  | .upload _ _ => true
  | _ => false

/-- Classifier: publish network calls — media uploads and tweet
creations. -/
def isPublishCall (c : Call) : Bool := isUploadCall c || isTweetCall c

/-- Classifier: checkpoint persistence events. -/
def isSaveCall : Call → Bool
  | .saveState _ => true
  | _ => false

/-- The creation timestamps carried by the tweet-creation attempts of a
trace, in trace order. -/
def tweetTimestamps (cs : List Call) : List Nat :=
  cs.filterMap fun c =>
    match c with
    | .createTweet _ _ _ t _ => some t
    | _ => none

section TakeLastLemmas

variable {α : Type _}

theorem length_takeLast (n : Nat) (l : List α) :
    (takeLast n l).length = min n l.length := by
  simp [takeLast]; omega

theorem takeLast_subset (n : Nat) (l : List α) : takeLast n l ⊆ l :=
  List.drop_subset _ l

theorem takeLast_takeLast {m n : Nat} (h : m ≤ n) (l : List α) :
    takeLast m (takeLast n l) = takeLast m l := by
  simp only [takeLast, List.drop_drop, List.length_drop]
  congr 1
  omega

theorem takeLast_append_of_le {n : Nat} {B : List α} (A : List α)
    (h : n ≤ B.length) : takeLast n (A ++ B) = takeLast n B := by
  simp only [takeLast, List.length_append, List.drop_append_eq_append_drop]
  have h1 : A.length + B.length - n - A.length = B.length - n := by omega
  have h2 : A.drop (A.length + B.length - n) = [] := by
    apply List.drop_eq_nil_of_le
    omega
  rw [h1, h2, List.nil_append]

theorem takeLast_append_of_ge {n : Nat} {B : List α} (A : List α)
    (h : B.length ≤ n) :
    takeLast n (A ++ B) = takeLast (n - B.length) A ++ B := by
  simp only [takeLast, List.length_append, List.drop_append_eq_append_drop]
  have h1 : A.length + B.length - n ≤ A.length := by omega
  have h2 : A.length + B.length - n - A.length = 0 := by omega
  rw [h2, List.drop_zero]
  congr 2
  omega

theorem takeLast_idem_append (n : Nat) (l l' : List α) :
    takeLast n (takeLast n l ++ l') = takeLast n (l ++ l') := by
  by_cases h : n ≤ l'.length
  · rw [takeLast_append_of_le _ h, takeLast_append_of_le _ h]
  · have h' : l'.length ≤ n := by omega
    rw [takeLast_append_of_ge _ h', takeLast_append_of_ge _ h',
      takeLast_takeLast (by omega)]

theorem mem_takeLast_append_singleton {n : Nat} (h : 1 ≤ n) (l : List α)
    (x : α) : x ∈ takeLast n (l ++ [x]) := by
  by_cases hl : n ≤ l.length + 1
  · simp only [takeLast, List.length_append, List.length_cons,
      List.length_nil, List.drop_append_eq_append_drop]
    have h2 : l.length + (0 + 1) - n - l.length = 0 := by omega
    rw [h2, List.drop_zero]
    simp
  · have : takeLast n (l ++ [x]) = l ++ [x] := by
      simp only [takeLast]
      have : (l ++ [x]).length - n = 0 := by simp; omega
      rw [this, List.drop_zero]
    rw [this]
    simp

end TakeLastLemmas

theorem recordPublished_ids (st : SyncState) (nlt : Nat) (id : String)
    (ts : Nat) :
    (recordPublished st nlt id ts).1.synced_event_ids
      = takeLast 1000 (st.synced_event_ids ++ [id]) := by
  rw [recordPublished]
  split <;> simp [save_state]

theorem recordPublished_ts (st : SyncState) (id : String) (ts : Nat) :
    (recordPublished st st.last_synced_timestamp id ts).1.last_synced_timestamp
        = max st.last_synced_timestamp ts
      ∧ (recordPublished st st.last_synced_timestamp id ts).2
        = max st.last_synced_timestamp ts := by
  unfold recordPublished save_state
  split <;> constructor <;> simp <;> omega

theorem recordMany_ids :
    ∀ (ps : List (String × Nat)) (st : SyncState) (nlt : Nat),
      takeLast 1000 st.synced_event_ids = st.synced_event_ids →
      (recordMany st nlt ps).1.synced_event_ids
        = takeLast 1000 (st.synced_event_ids ++ ps.map fun p => p.1)
  | [], st, nlt, h => by simpa [recordMany] using h.symm
  | p :: ps, st, nlt, h => by
    have hrec := recordPublished_ids st nlt p.1 p.2
    have hinv : takeLast 1000
        (recordPublished st nlt p.1 p.2).1.synced_event_ids
        = (recordPublished st nlt p.1 p.2).1.synced_event_ids := by
      rw [hrec, takeLast_takeLast (Nat.le_refl 1000)]
    have ih := recordMany_ids ps (recordPublished st nlt p.1 p.2).1
      (recordPublished st nlt p.1 p.2).2 hinv
    simp only [recordMany]
    rw [ih, hrec, takeLast_idem_append]
    simp

section TransformerLemmas

theorem emu_foldl_snd :
    ∀ (us : List (List Char)) (t : List Char) (m : List (List Char)),
      (List.foldl emuStep (t, m) us).2 = m ++ us.filter isMediaUrl
  | [], t, m => by simp
  | u :: us, t, m => by
    by_cases h : isMediaUrl u
    · simp only [List.foldl_cons, emuStep, h, if_true, List.filter_cons, h]
      rw [emu_foldl_snd us]
      simp
    · simp only [List.foldl_cons, emuStep, h, if_false, List.filter_cons]
      rw [emu_foldl_snd us]
      simp [h]

theorem emu_foldl_of_no_media :
    ∀ (us : List (List Char)) (t : List Char) (m : List (List Char)),
      us.filter isMediaUrl = [] → List.foldl emuStep (t, m) us = (t, m)
  | [], t, m, _ => by simp
  | u :: us, t, m, h => by
    have hu : isMediaUrl u = false := by
      by_contra hc
      simp only [Bool.not_eq_false] at hc
      simp [List.filter_cons, hc] at h
    have hus : us.filter isMediaUrl = [] := by
      simpa [List.filter_cons, hu] using h
    simp only [List.foldl_cons, emuStep, hu, Bool.false_eq_true, if_false]
    exact emu_foldl_of_no_media us t m hus

theorem extract_media_urls_snd (content : List Char) :
    (extract_media_urls content).2 = (findUrls content).filter isMediaUrl := by
  simpa using emu_foldl_snd (findUrls content) content []

theorem html_not_media {url : List Char}
    (h : (".html".data).isSuffixOf (url.map Char.toLower) = true) :
    isMediaUrl url = false := by
  by_contra hc
  simp only [Bool.not_eq_false] at hc
  rw [isMediaUrl, List.any_eq_true] at hc
  obtain ⟨ext, hmem, hsuf⟩ := hc
  have hs1 := List.isSuffixOf_iff_suffix.mp hsuf
  have hs2 := List.isSuffixOf_iff_suffix.mp h
  simp only [MEDIA_EXTENSIONS, List.mem_cons, List.not_mem_nil, or_false,
    List.mem_singleton] at hmem
  rcases hmem with rfl | rfl | rfl | rfl | rfl | rfl <;>
    exact absurd (List.suffix_of_suffix_length_le hs1 hs2 (by decide))
      (by decide)

end TransformerLemmas

section EngineLemmas

/-- The loop invariant of `SyncTool.run`: the local `new_last_ts`
variable always equals the in-memory `last_synced_timestamp` (both start
as the loaded value, and a successful publish updates them together). -/
def InvL (ls : LoopSt) : Prop :=
  ls.newLastTs = ls.state.last_synced_timestamp

theorem mediaStep_calls (cfg : Config) (net : Net) (eid : String)
    (url : List Char) :
    ∀ c ∈ (mediaStep cfg net eid url).2.2,
      isTweetCall c = false ∧ isSaveCall c = false ∧
        (twitterConfigured cfg = false → isUploadCall c = false) := by
  intro c hc
  rw [mediaStep] at hc
  rcases hdl : net.download (String.mk url) with _ | path
  · rw [hdl] at hc
    simp only [List.mem_singleton] at hc
    subst hc
    simp [isTweetCall, isSaveCall, isUploadCall]
  · rw [hdl] at hc
    by_cases htw : twitterConfigured cfg
    · simp only [htw, if_true] at hc
      rcases hup : net.upload path with _ | mid <;> rw [hup] at hc <;>
        simp only [List.mem_cons, List.mem_singleton, List.not_mem_nil] at hc <;>
        rcases hc with hc | hc <;> try subst hc
      all_goals
        simp_all [isTweetCall, isSaveCall, isUploadCall]
    · simp only [htw] at hc
      simp only [Bool.false_eq_true, if_false, List.mem_singleton] at hc
      subst hc
      simp [isTweetCall, isSaveCall, isUploadCall]

theorem processMedia_calls (cfg : Config) (net : Net) (eid : String) :
    ∀ (urls : List (List Char)), ∀ c ∈ (processMedia cfg net eid urls).2.2,
      isTweetCall c = false ∧ isSaveCall c = false ∧
        (twitterConfigured cfg = false → isUploadCall c = false)
  | [], c, hc => by simp [processMedia] at hc
  | url :: rest, c, hc => by
    rw [processMedia] at hc
    simp only [List.mem_append] at hc
    rcases hc with hc | hc
    · exact mediaStep_calls cfg net eid url c hc
    · exact processMedia_calls cfg net eid rest c hc

theorem processEvent_skip {cfg : Config} {net : Net} {ls : LoopSt} {e : Event}
    (h : ls.state.synced_event_ids.contains e.id = true) :
    processEvent cfg net ls e = (ls, []) := by
  have hmem : e.id ∈ ls.state.synced_event_ids := by simpa using h
  simp [processEvent, hmem]

theorem processEvent_reply {cfg : Config} {net : Net} {ls : LoopSt} {e : Event}
    (h : ls.state.synced_event_ids.contains e.id = false)
    (hr : isReply e = true) :
    processEvent cfg net ls e = (ls, []) := by
  have hmem : e.id ∉ ls.state.synced_event_ids := by simpa using h
  simp [processEvent, hmem, hr]

theorem processEvent_dry {cfg : Config} {net : Net} {ls : LoopSt} {e : Event}
    (h : ls.state.synced_event_ids.contains e.id = false)
    (hr : isReply e = false) (htw : twitterConfigured cfg = false) :
    processEvent cfg net ls e =
      (ls, (processMedia cfg net e.id (extract_media_urls e.content.data).2).2.2
        ++ [Call.dryRun e.id]) := by
  have hmem : e.id ∉ ls.state.synced_event_ids := by simpa using h
  simp [processEvent, hmem, hr, htw]

theorem processEvent_fail {cfg : Config} {net : Net} {ls : LoopSt} {e : Event}
    (h : ls.state.synced_event_ids.contains e.id = false)
    (hr : isReply e = false) (htw : twitterConfigured cfg = true)
    (hok : net.tweet e.id = false) :
    processEvent cfg net ls e =
      (ls, (processMedia cfg net e.id (extract_media_urls e.content.data).2).2.2
        ++ [Call.createTweet e.id
              (String.mk (truncateText (extract_media_urls e.content.data).1))
              (processMedia cfg net e.id (extract_media_urls e.content.data).2).1
              e.created_at false]) := by
  have hmem : e.id ∉ ls.state.synced_event_ids := by simpa using h
  simp [processEvent, hmem, hr, htw, hok]

theorem processEvent_succ {cfg : Config} {net : Net} {ls : LoopSt} {e : Event}
    (h : ls.state.synced_event_ids.contains e.id = false)
    (hr : isReply e = false) (htw : twitterConfigured cfg = true)
    (hok : net.tweet e.id = true) :
    processEvent cfg net ls e =
      (⟨(recordPublished ls.state ls.newLastTs e.id e.created_at).1,
        (recordPublished ls.state ls.newLastTs e.id e.created_at).2⟩,
       (processMedia cfg net e.id (extract_media_urls e.content.data).2).2.2
        ++ [Call.createTweet e.id
              (String.mk (truncateText (extract_media_urls e.content.data).1))
              (processMedia cfg net e.id (extract_media_urls e.content.data).2).1
              e.created_at true,
            Call.saveState (recordPublished ls.state ls.newLastTs e.id
              e.created_at).1]) := by
  have hmem : e.id ∉ ls.state.synced_event_ids := by simpa using h
  simp [processEvent, hmem, hr, htw, hok]

theorem processEvent_inv {cfg : Config} {net : Net} {ls : LoopSt} {e : Event}
    (h : InvL ls) : InvL (processEvent cfg net ls e).1 := by
  cases hc : ls.state.synced_event_ids.contains e.id with
  | true => rw [processEvent_skip hc]; exact h
  | false =>
  cases hr : isReply e with
  | true => rw [processEvent_reply hc hr]; exact h
  | false =>
  cases htw : twitterConfigured cfg with
  | false => rw [processEvent_dry hc hr htw]; exact h
  | true =>
  cases hok : net.tweet e.id with
  | false => rw [processEvent_fail hc hr htw hok]; exact h
  | true =>
    rw [processEvent_succ hc hr htw hok]
    show (recordPublished ls.state ls.newLastTs e.id e.created_at).2
      = (recordPublished ls.state ls.newLastTs e.id e.created_at).1.last_synced_timestamp
    rw [h]
    rcases recordPublished_ts ls.state e.id e.created_at with ⟨h1, h2⟩
    rw [h1, h2]

theorem processEvent_ts_mono {cfg : Config} {net : Net} {ls : LoopSt}
    {e : Event} (h : InvL ls) :
    ls.state.last_synced_timestamp
      ≤ (processEvent cfg net ls e).1.state.last_synced_timestamp := by
  cases hc : ls.state.synced_event_ids.contains e.id with
  | true => rw [processEvent_skip hc]
  | false =>
  cases hr : isReply e with
  | true => rw [processEvent_reply hc hr]
  | false =>
  cases htw : twitterConfigured cfg with
  | false => rw [processEvent_dry hc hr htw]
  | true =>
  cases hok : net.tweet e.id with
  | false => rw [processEvent_fail hc hr htw hok]
  | true =>
    rw [processEvent_succ hc hr htw hok]
    show ls.state.last_synced_timestamp
      ≤ (recordPublished ls.state ls.newLastTs e.id e.created_at).1.last_synced_timestamp
    rw [h]
    rw [(recordPublished_ts ls.state e.id e.created_at).1]
    exact Nat.le_max_left _ _

theorem processEvent_tweetTrue_ts {cfg : Config} {net : Net} {ls : LoopSt}
    {e : Event} {id txt : String} {mids : List Nat} {t : Nat} (h : InvL ls)
    (hm : Call.createTweet id txt mids t true ∈ (processEvent cfg net ls e).2) :
    t ≤ (processEvent cfg net ls e).1.state.last_synced_timestamp := by
  cases hc : ls.state.synced_event_ids.contains e.id with
  | true => rw [processEvent_skip hc] at hm; simp at hm
  | false =>
  cases hr : isReply e with
  | true => rw [processEvent_reply hc hr] at hm; simp at hm
  | false =>
  cases htw : twitterConfigured cfg with
  | false =>
    rw [processEvent_dry hc hr htw] at hm
    rcases List.mem_append.mp hm with h1 | h1
    · have := (processMedia_calls cfg net e.id _ _ h1).1
      simp [isTweetCall] at this
    · simp at h1
  | true =>
  cases hok : net.tweet e.id with
  | false =>
    rw [processEvent_fail hc hr htw hok] at hm
    rcases List.mem_append.mp hm with h1 | h1
    · have := (processMedia_calls cfg net e.id _ _ h1).1
      simp [isTweetCall] at this
    · simp at h1
  | true =>
    rw [processEvent_succ hc hr htw hok] at hm ⊢
    rcases List.mem_append.mp hm with h1 | h1
    · have := (processMedia_calls cfg net e.id _ _ h1).1
      simp [isTweetCall] at this
    · have ht : t = e.created_at := by
        rcases List.mem_cons.mp h1 with h2 | h2
        · simp only [Call.createTweet.injEq] at h2
          exact h2.2.2.2.1
        · simp at h2
      rw [ht]
      show e.created_at ≤ (recordPublished ls.state ls.newLastTs e.id
        e.created_at).1.last_synced_timestamp
      rw [h, (recordPublished_ts ls.state e.id e.created_at).1]
      exact Nat.le_max_right _ _

theorem runFold_inv {cfg : Config} {net : Net} :
    ∀ (evs : List Event) (ls : LoopSt), InvL ls →
      InvL (runFold cfg net ls evs).1
  | [], ls, h => h
  | e :: rest, ls, h => by
    rw [runFold]
    exact runFold_inv rest _ (processEvent_inv h)

theorem runFold_ts_mono {cfg : Config} {net : Net} :
    ∀ (evs : List Event) (ls : LoopSt), InvL ls →
      ls.state.last_synced_timestamp
        ≤ (runFold cfg net ls evs).1.state.last_synced_timestamp
  | [], ls, _ => Nat.le_refl _
  | e :: rest, ls, h => by
    rw [runFold]
    exact Nat.le_trans (processEvent_ts_mono h)
      (runFold_ts_mono rest _ (processEvent_inv h))

theorem runFold_tweetTrue_ts {cfg : Config} {net : Net} {id txt : String}
    {mids : List Nat} {t : Nat} :
    ∀ (evs : List Event) (ls : LoopSt), InvL ls →
      Call.createTweet id txt mids t true ∈ (runFold cfg net ls evs).2 →
      t ≤ (runFold cfg net ls evs).1.state.last_synced_timestamp
  | [], ls, _, hm => by simp [runFold] at hm
  | e :: rest, ls, h, hm => by
    rw [runFold] at hm ⊢
    rcases List.mem_append.mp hm with h1 | h1
    · exact Nat.le_trans (processEvent_tweetTrue_ts h h1)
        (runFold_ts_mono rest _ (processEvent_inv h))
    · exact runFold_tweetTrue_ts rest _ (processEvent_inv h) h1

theorem tts_append (a b : List Call) :
    tweetTimestamps (a ++ b) = tweetTimestamps a ++ tweetTimestamps b :=
  List.filterMap_append a b _

theorem tts_eq_nil_of_no_tweet {cs : List Call}
    (h : ∀ c ∈ cs, isTweetCall c = false) : tweetTimestamps cs = [] := by
  rw [tweetTimestamps, List.filterMap_eq_nil_iff]
  intro c hc
  have hC := h c hc
  cases c <;> simp_all [isTweetCall]

theorem tts_processMedia (cfg : Config) (net : Net) (eid : String)
    (urls : List (List Char)) :
    tweetTimestamps (processMedia cfg net eid urls).2.2 = [] :=
  tts_eq_nil_of_no_tweet fun c hc => (processMedia_calls cfg net eid urls c hc).1

theorem tts_processEvent (cfg : Config) (net : Net) (ls : LoopSt) (e : Event) :
    List.Sublist (tweetTimestamps (processEvent cfg net ls e).2)
      [e.created_at] := by
  cases hc : ls.state.synced_event_ids.contains e.id with
  | true => rw [processEvent_skip hc]; simp [tweetTimestamps]
  | false =>
  cases hr : isReply e with
  | true => rw [processEvent_reply hc hr]; simp [tweetTimestamps]
  | false =>
  cases htw : twitterConfigured cfg with
  | false =>
    rw [processEvent_dry hc hr htw, tts_append, tts_processMedia]
    simp [tweetTimestamps]
  | true =>
  cases hok : net.tweet e.id with
  | false =>
    rw [processEvent_fail hc hr htw hok, tts_append, tts_processMedia]
    simp [tweetTimestamps]
  | true =>
    rw [processEvent_succ hc hr htw hok, tts_append, tts_processMedia]
    simp [tweetTimestamps]

theorem tts_runFold (cfg : Config) (net : Net) :
    ∀ (evs : List Event) (ls : LoopSt),
      List.Sublist (tweetTimestamps (runFold cfg net ls evs).2)
        (evs.map Event.created_at)
  | [], ls => by simp [runFold, tweetTimestamps]
  | e :: rest, ls => by
    rw [runFold]
    show List.Sublist (tweetTimestamps ((processEvent cfg net ls e).2 ++ _))
      (e.created_at :: rest.map Event.created_at)
    rw [tts_append]
    exact List.Sublist.append (tts_processEvent cfg net ls e)
      (tts_runFold cfg net rest _)

theorem mem_insertEv {y e : Event} :
    ∀ {l : List Event}, y ∈ insertEv e l → y = e ∨ y ∈ l
  | [], h => by
    simp only [insertEv, List.mem_singleton] at h
    exact Or.inl h
  | x :: xs, h => by
    rw [insertEv] at h
    by_cases hx : eventLe x e
    · simp only [hx, if_true, List.mem_cons] at h
      rcases h with rfl | h
      · exact Or.inr (List.mem_cons_self _ _)
      · rcases mem_insertEv h with h' | h'
        · exact Or.inl h'
        · exact Or.inr (List.mem_cons_of_mem _ h')
    · simp only [hx, Bool.false_eq_true, if_false, List.mem_cons] at h
      rcases h with h | h
      · exact Or.inl h
      · exact Or.inr (by simpa using h)

theorem insertEv_pairwise {e : Event} :
    ∀ {l : List Event},
      l.Pairwise (fun a b => a.created_at ≤ b.created_at) →
      (insertEv e l).Pairwise fun a b => a.created_at ≤ b.created_at
  | [], _ => by simp [insertEv]
  | x :: xs, h => by
    rw [insertEv]
    rcases List.pairwise_cons.mp h with ⟨hx, hxs⟩
    by_cases hc : eventLe x e
    · simp only [hc, if_true]
      refine List.pairwise_cons.mpr ⟨?_, insertEv_pairwise hxs⟩
      intro y hy
      rcases mem_insertEv hy with rfl | hy'
      · simpa [eventLe] using hc
      · exact hx y hy'
    · simp only [hc, if_false]
      have hce : e.created_at ≤ x.created_at := by
        simp only [eventLe, decide_eq_true_eq] at hc
        omega
      refine List.pairwise_cons.mpr ⟨?_, h⟩
      intro y hy
      rcases List.mem_cons.mp hy with rfl | hy'
      · exact hce
      · exact Nat.le_trans hce (hx y hy')

theorem sortEvents_pairwise (l : List Event) :
    (sortEvents l).Pairwise fun a b => a.created_at ≤ b.created_at := by
  rw [sortEvents]
  suffices h : ∀ (l : List Event) (acc : List Event),
      acc.Pairwise (fun a b => a.created_at ≤ b.created_at) →
      (l.foldl (fun acc e => insertEv e acc) acc).Pairwise
        fun a b => a.created_at ≤ b.created_at by
    exact h l [] List.Pairwise.nil
  intro l
  induction l with
  | nil => intro acc hacc; simpa using hacc
  | cons e rest ih =>
    intro acc hacc
    exact ih (insertEv e acc) (insertEv_pairwise hacc)

theorem preCalls_classify (cfg : Config) (s : Nat) :
    ∀ c ∈ cfg.relays.map Call.addRelay ++ [Call.clientConnect] ++ [Call.fetch s],
      isTweetCall c = false ∧ isSaveCall c = false ∧ isPublishCall c = false := by
  intro c hc
  simp only [List.mem_append, List.mem_map, List.mem_singleton] at hc
  rcases hc with (⟨r, _, rfl⟩ | rfl) | rfl <;>
    simp [isTweetCall, isSaveCall, isPublishCall, isUploadCall]

theorem processEvent_dry_frame {cfg : Config} {net : Net} {ls : LoopSt}
    {e : Event} (htw : twitterConfigured cfg = false) :
    (processEvent cfg net ls e).1 = ls ∧
      ∀ c ∈ (processEvent cfg net ls e).2,
        isPublishCall c = false ∧ isSaveCall c = false := by
  cases hc : ls.state.synced_event_ids.contains e.id with
  | true => rw [processEvent_skip hc]; exact ⟨rfl, by simp⟩
  | false =>
  cases hr : isReply e with
  | true => rw [processEvent_reply hc hr]; exact ⟨rfl, by simp⟩
  | false =>
    rw [processEvent_dry hc hr htw]
    refine ⟨rfl, ?_⟩
    intro c hcm
    rcases List.mem_append.mp hcm with h1 | h1
    · have h2 := processMedia_calls cfg net e.id _ c h1
      exact ⟨by simp [isPublishCall, h2.1, h2.2.2 htw], h2.2.1⟩
    · simp only [List.mem_singleton] at h1
      subst h1
      simp [isPublishCall, isUploadCall, isTweetCall, isSaveCall]

theorem runFold_dry {cfg : Config} {net : Net}
    (htw : twitterConfigured cfg = false) :
    ∀ (evs : List Event) (ls : LoopSt),
      (runFold cfg net ls evs).1 = ls ∧
        ∀ c ∈ (runFold cfg net ls evs).2,
          isPublishCall c = false ∧ isSaveCall c = false
  | [], ls => by simp [runFold]
  | e :: rest, ls => by
    rw [runFold]
    rcases @processEvent_dry_frame cfg net ls e htw with ⟨hst, htr⟩
    rcases runFold_dry htw rest (processEvent cfg net ls e).1 with ⟨hst2, htr2⟩
    constructor
    · rw [hst2, hst]
    · intro c hcm
      rcases List.mem_append.mp hcm with h1 | h1
      · exact htr c h1
      · exact htr2 c h1

theorem contains_false {a : String} {l : List String} (h : a ∉ l) :
    l.contains a = false := by
  simpa using h

/-- The state produced by the loop when every processed event is fresh
(no duplicate skip), is not a reply, and publishes successfully: the id
history becomes the last 1000 of the old history extended by the
processed ids, in order. -/
theorem runFold_all_success_ids {cfg : Config} {net : Net}
    (htw : twitterConfigured cfg = true) :
    ∀ (evs : List Event) (ls : LoopSt),
      (∀ e ∈ evs, net.tweet e.id = true ∧ isReply e = false) →
      (evs.map Event.id).Nodup →
      (∀ e ∈ evs, e.id ∉ ls.state.synced_event_ids) →
      takeLast 1000 ls.state.synced_event_ids = ls.state.synced_event_ids →
      (runFold cfg net ls evs).1.state.synced_event_ids
        = takeLast 1000 (ls.state.synced_event_ids ++ evs.map Event.id)
  | [], ls, _, _, _, hcap => by
    simpa [runFold] using hcap.symm
  | e :: rest, ls, hok, hnd, hfresh, hcap => by
    have he := hok e (List.mem_cons_self e rest)
    have hc : ls.state.synced_event_ids.contains e.id = false :=
      contains_false (hfresh e (List.mem_cons_self e rest))
    have hpe := processEvent_succ hc he.2 htw he.1
    have hids : (recordPublished ls.state ls.newLastTs e.id
        e.created_at).1.synced_event_ids
        = takeLast 1000 (ls.state.synced_event_ids ++ [e.id]) :=
      recordPublished_ids _ _ _ _
    have hnd2 : (∀ x ∈ rest, ¬x.id = e.id) ∧ (rest.map Event.id).Nodup := by
      simpa using hnd
    have hfresh2 : ∀ e' ∈ rest,
        e'.id ∉ (recordPublished ls.state ls.newLastTs e.id
          e.created_at).1.synced_event_ids := by
      intro e' he' hmem
      rw [hids] at hmem
      have hsub := takeLast_subset 1000
        (ls.state.synced_event_ids ++ [e.id]) hmem
      rcases List.mem_append.mp hsub with hl | hl
      · exact hfresh e' (List.mem_cons_of_mem _ he') hl
      · simp only [List.mem_singleton] at hl
        exact hnd2.1 e' he' hl
    have hcap2 : takeLast 1000 (recordPublished ls.state ls.newLastTs e.id
        e.created_at).1.synced_event_ids
        = (recordPublished ls.state ls.newLastTs e.id
          e.created_at).1.synced_event_ids := by
      rw [hids, takeLast_takeLast (Nat.le_refl 1000)]
    have ih := runFold_all_success_ids htw rest
      ⟨(recordPublished ls.state ls.newLastTs e.id e.created_at).1,
       (recordPublished ls.state ls.newLastTs e.id e.created_at).2⟩
      (fun e' h' => hok e' (List.mem_cons_of_mem _ h')) hnd2.2 hfresh2 hcap2
    have hstep : (runFold cfg net ls (e :: rest)).1
        = (runFold cfg net (processEvent cfg net ls e).1 rest).1 := by
      simp only [runFold]
    rw [hstep, hpe]
    rw [ih]
    show takeLast 1000 ((recordPublished ls.state ls.newLastTs e.id
        e.created_at).1.synced_event_ids ++ rest.map Event.id) = _
    rw [hids, takeLast_idem_append]
    simp

/-- Distinct synthetic event ids used in the eviction scenarios. -/
def mkId (n : Nat) : String := String.mk (List.replicate n 'a')

theorem mkId_injective : Function.Injective mkId := by
  intro m n h
  have hd : List.replicate m 'a' = List.replicate n 'a' :=
    congrArg String.data h
  simpa using congrArg List.length hd

theorem mkId_ne_dup (n : Nat) : mkId n ≠ "dup" := by
  intro h
  have hd : List.replicate n 'a' = ("dup".data) := congrArg String.data h
  have hl : n = 3 := by simpa using congrArg List.length hd
  subst hl
  exact absurd hd (by decide)

theorem takeLast_1000_cons {α : Type _} {x : α} {X : List α}
    (h : X.length = 1000) : takeLast 1000 (x :: X) = X := by
  simp [takeLast, h]

theorem range'_0_1001 : List.range' 0 1001 = 0 :: List.range' 1 1000 := by
  simpa using List.range'_succ 0 1000 1

end EngineLemmas

section Fixtures

/-- A configuration with all four Twitter credentials present. -/
def cfgFull : Config :=
  ⟨["npub1"], ["wss://r1"], some "k", some "s", some "t", some "u"⟩

/-- A configuration with a missing credential (dry-run mode). -/
def cfgDry : Config := ⟨["npub1"], ["wss://r1"], none, some "s", some "t", some "u"⟩

/-- Oracle where every tweet creation succeeds and every download fails
(no media in the scenarios anyway). -/
def netOk : Net := ⟨fun _ => none, fun _ => none, fun _ => true⟩

/-- Oracle where every tweet creation raises. -/
def netFail : Net := ⟨fun _ => none, fun _ => none, fun _ => false⟩

/-- Oracle where only the tweet for event id `x1` raises. -/
def netFailX1 : Net := ⟨fun _ => none, fun _ => none, fun i => i != "x1"⟩

/-- A plain top-level text event. -/
def mkEv (i : String) (t : Nat) : Event := ⟨i, t, "hello", []⟩

/-- One thousand and one (id, timestamp) pairs with distinct ids, oldest
first, for the eviction scenario of the checkpoint contract. -/
def evictPairs : List (String × Nat) :=
  (List.range' 0 1001).map fun n => (mkId n, n)

/-- A batch of 1000 successful fresh events processed between the two
occurrences of the duplicated id. -/
def batchEvents : List Event :=
  (List.range' 1 1000).map fun n => ⟨mkId n, n, "", []⟩

/-- First occurrence of the duplicated id. -/
def dupFirst : Event := ⟨"dup", 0, "", []⟩

/-- Second occurrence of the duplicated id, fetched in the same batch. -/
def dupLater : Event := ⟨"dup", 1001, "", []⟩

end Fixtures

section FixtureLemmas

theorem recordMany_evict_ids :
    (recordMany ⟨0, []⟩ 0 evictPairs).1.synced_event_ids
      = (List.range' 1 1000).map mkId := by
  have h := recordMany_ids evictPairs ⟨0, []⟩ 0 (by rfl)
  rw [h]
  have h2 : evictPairs.map (fun p => p.1) = (List.range' 0 1001).map mkId := by
    simp [evictPairs, List.map_map]
  show takeLast 1000 ([] ++ evictPairs.map fun p => p.1) = _
  rw [List.nil_append, h2, range'_0_1001, List.map_cons]
  exact takeLast_1000_cons (by simp)

theorem c10_prefix_ids :
    (runFold cfgFull netOk ⟨⟨0, []⟩, 0⟩
        (dupFirst :: batchEvents)).1.state.synced_event_ids
      = (List.range' 1 1000).map mkId := by
  have hmap : (dupFirst :: batchEvents).map Event.id
      = "dup" :: (List.range' 1 1000).map mkId := by
    simp [dupFirst, batchEvents, List.map_map]
  have hok : ∀ e ∈ dupFirst :: batchEvents,
      netOk.tweet e.id = true ∧ isReply e = false := by
    intro e he
    refine ⟨rfl, ?_⟩
    rcases List.mem_cons.mp he with rfl | hb
    · rfl
    · obtain ⟨n, -, rfl⟩ := List.mem_map.mp hb
      rfl
  have hnd : ((dupFirst :: batchEvents).map Event.id).Nodup := by
    rw [hmap]
    refine List.nodup_cons.mpr ⟨?_, ?_⟩
    · intro hm
      obtain ⟨n, -, hn⟩ := List.mem_map.mp hm
      exact mkId_ne_dup n hn
    · exact List.Nodup.map mkId_injective (List.nodup_range' 1 1000)
  have hfresh : ∀ e ∈ dupFirst :: batchEvents,
      e.id ∉ (⟨⟨0, []⟩, 0⟩ : LoopSt).state.synced_event_ids := by
    intro e _ hm
    simp at hm
  have h := runFold_all_success_ids
    (show twitterConfigured cfgFull = true by rfl) (dupFirst :: batchEvents)
    ⟨⟨0, []⟩, 0⟩ hok hnd hfresh (by rfl)
  rw [h]
  show takeLast 1000 ([] ++ (dupFirst :: batchEvents).map Event.id) = _
  rw [List.nil_append, hmap]
  exact takeLast_1000_cons (by simp)

end FixtureLemmas

section RunShape

theorem run_eq_empty_npubs {cfg : Config} {net : Net} {st0 : SyncState}
    {fetched : List Event} (hn : cfg.npubs.isEmpty = true) :
    run cfg net st0 fetched = (st0, []) := by
  simp [run, hn]

theorem run_eq_no_events {cfg : Config} {net : Net} {st0 : SyncState}
    {fetched : List Event} (hn : cfg.npubs.isEmpty = false)
    (he : (sortEvents fetched).isEmpty = true) :
    run cfg net st0 fetched
      = (st0, cfg.relays.map Call.addRelay ++ [Call.clientConnect]
          ++ [Call.fetch (st0.last_synced_timestamp + 1)]) := by
  simp [run, hn, he]

theorem run_eq_main {cfg : Config} {net : Net} {st0 : SyncState}
    {fetched : List Event} (hn : cfg.npubs.isEmpty = false)
    (he : (sortEvents fetched).isEmpty = false) :
    run cfg net st0 fetched
      = ((runFold cfg net ⟨st0, st0.last_synced_timestamp⟩
            (sortEvents fetched)).1.state,
         (cfg.relays.map Call.addRelay ++ [Call.clientConnect]
            ++ [Call.fetch (st0.last_synced_timestamp + 1)])
           ++ (runFold cfg net ⟨st0, st0.last_synced_timestamp⟩
              (sortEvents fetched)).2) := by
  simp [run, hn, he]

end RunShape

section Claims

/-- C1: when the tweet-creation call raises for an item (and the item was
actually attempted: not a duplicate, not a reply, credentials present),
the loop state is completely unchanged by that item — in particular its
id is not appended to `synced_event_ids` and `last_synced_timestamp` is
untouched — no `save_state` call is emitted for it, and processing
continues with the remaining items of the batch from the same state. -/
theorem C1_publish_failure_no_checkpoint (cfg : Config) (net : Net)
    (ls : LoopSt) (e : Event) (rest : List Event)
    (htw : twitterConfigured cfg = true) (hok : net.tweet e.id = false)
    (hc : ls.state.synced_event_ids.contains e.id = false)
    (hr : isReply e = false) :
    (processEvent cfg net ls e).1 = ls
      ∧ (∀ c ∈ (processEvent cfg net ls e).2, isSaveCall c = false)
      ∧ runFold cfg net ls (e :: rest)
        = ((runFold cfg net ls rest).1,
           (processEvent cfg net ls e).2 ++ (runFold cfg net ls rest).2) := by
  have hpe := processEvent_fail hc hr htw hok
  refine ⟨by rw [hpe], ?_, ?_⟩
  · intro c hcm
    rw [hpe] at hcm
    rcases List.mem_append.mp hcm with h1 | h1
    · exact (processMedia_calls cfg net e.id _ c h1).2.1
    · simp only [List.mem_singleton] at h1
      subst h1
      rfl
  · simp only [runFold]
    rw [hpe]

/-- C1 witness: a concrete failing tweet creation leaves the loop state
unchanged. -/
theorem C1_witness :
    (twitterConfigured cfgFull = true
        ∧ netFail.tweet (mkEv "x1" 1).id = false
        ∧ (⟨⟨0, []⟩, 0⟩ : LoopSt).state.synced_event_ids.contains
            (mkEv "x1" 1).id = false
        ∧ isReply (mkEv "x1" 1) = false)
      ∧ (processEvent cfgFull netFail ⟨⟨0, []⟩, 0⟩ (mkEv "x1" 1)).1
        = ⟨⟨0, []⟩, 0⟩ :=
  ⟨⟨by decide, by decide, by decide, by decide⟩,
   (C1_publish_failure_no_checkpoint cfgFull netFail ⟨⟨0, []⟩, 0⟩ (mkEv "x1" 1)
     [] (by decide) (by decide) (by decide) (by decide)).1⟩

/-- C2: an event whose id is already in `synced_event_ids` at the moment
it is examined is skipped outright: the loop body returns the state
unchanged and performs no calls at all — in particular no media upload
and no tweet creation — regardless of its timestamp. -/
theorem C2_duplicate_never_published (cfg : Config) (net : Net) (ls : LoopSt)
    (e : Event) (h : e.id ∈ ls.state.synced_event_ids) :
    processEvent cfg net ls e = (ls, []) :=
  processEvent_skip (by simpa using h)

/-- C2 witness: a concrete already-synced event is skipped without any
call. -/
theorem C2_witness :
    ((mkEv "x1" 7).id ∈ (⟨⟨5, ["x1"]⟩, 5⟩ : LoopSt).state.synced_event_ids)
      ∧ processEvent cfgFull netOk ⟨⟨5, ["x1"]⟩, 5⟩ (mkEv "x1" 7)
        = (⟨⟨5, ["x1"]⟩, 5⟩, []) :=
  ⟨by decide,
   C2_duplicate_never_published cfgFull netOk ⟨⟨5, ["x1"]⟩, 5⟩ (mkEv "x1" 7)
     (by decide)⟩

/-- C4: the per-success checkpoint update (append id, truncate the id
list to the most recent 1000, advance the timestamp to the max) — stated
on `recordPublished` at the loop invariant `new_last_ts =
last_synced_timestamp`; after recording 1001 distinct ids from the empty
checkpoint the id list has length exactly 1000 and no longer contains the
oldest id; and the timestamp never decreases by a recording. -/
theorem C4_record_truncate_evict_monotone :
    (∀ (st : SyncState) (id : String) (ts : Nat),
        (recordPublished st st.last_synced_timestamp id ts).1.synced_event_ids
            = takeLast 1000 (st.synced_event_ids ++ [id])
          ∧ (recordPublished st st.last_synced_timestamp id
              ts).1.last_synced_timestamp
            = max st.last_synced_timestamp ts)
      ∧ (recordMany ⟨0, []⟩ 0 evictPairs).1.synced_event_ids.length = 1000
      ∧ mkId 0 ∉ (recordMany ⟨0, []⟩ 0 evictPairs).1.synced_event_ids
      ∧ (∀ (st : SyncState) (id : String) (ts : Nat),
          st.last_synced_timestamp
            ≤ (recordPublished st st.last_synced_timestamp id
                ts).1.last_synced_timestamp) := by
  refine ⟨?_, ?_, ?_, ?_⟩
  · intro st id ts
    exact ⟨recordPublished_ids st st.last_synced_timestamp id ts,
      (recordPublished_ts st id ts).1⟩
  · rw [recordMany_evict_ids]
    simp
  · rw [recordMany_evict_ids]
    intro hm
    obtain ⟨n, hn, h⟩ := List.mem_map.mp hm
    have : n = 0 := mkId_injective h
    subst this
    have := List.mem_range'_1.mp hn
    omega
  · intro st id ts
    rw [(recordPublished_ts st id ts).1]
    exact Nat.le_max_left _ _

/-- C3: in every run, tweet creations are attempted in non-decreasing
order of the events' creation timestamps (the batch is sorted ascending
by `created_at` before the loop); concretely, three posts with
timestamps 3, 1, 2 arriving in that order are attempted in the order
1, 2, 3. -/
theorem C3_publish_order_ascending :
    (∀ (cfg : Config) (net : Net) (st0 : SyncState) (fetched : List Event),
        List.Pairwise (· ≤ ·) (tweetTimestamps (run cfg net st0 fetched).2))
      ∧ tweetTimestamps (run cfgFull netOk ⟨0, []⟩
          [mkEv "x3" 3, mkEv "x1" 1, mkEv "x2" 2]).2 = [1, 2, 3] := by
  constructor
  · intro cfg net st0 fetched
    have hpre := tts_eq_nil_of_no_tweet
      (fun c hc =>
        (preCalls_classify cfg (st0.last_synced_timestamp + 1) c hc).1)
    cases hn : cfg.npubs.isEmpty with
    | true => rw [run_eq_empty_npubs hn]; simp [tweetTimestamps]
    | false =>
    cases he : (sortEvents fetched).isEmpty with
    | true =>
      rw [run_eq_no_events hn he]
      show List.Pairwise (· ≤ ·) (tweetTimestamps _)
      rw [hpre]
      exact List.Pairwise.nil
    | false =>
      rw [run_eq_main hn he]
      show List.Pairwise (· ≤ ·) (tweetTimestamps (_ ++ _))
      rw [tts_append, hpre, List.nil_append]
      have hp : List.Pairwise (fun x y => x ≤ y)
          ((sortEvents fetched).map Event.created_at) :=
        List.Pairwise.map Event.created_at (fun _ _ hab => hab)
          (sortEvents_pairwise fetched)
      exact List.Pairwise.sublist
        (tts_runFold cfg net (sortEvents fetched)
          ⟨st0, st0.last_synced_timestamp⟩) hp
  · decide

/-- C5: if within one run some tweet creation raised at timestamp `t1`
and a tweet creation at a later timestamp `t2 > t1` succeeded, then the
final checkpoint timestamp is at least `t2`, so `t1` is strictly below
the next run's fetch window `since = last_synced_timestamp + 1`; the
window grounding is the `Call.fetch (last + 1)` a subsequent run issues. -/
theorem C5_failed_item_outside_next_window (cfg : Config) (net : Net)
    (st0 : SyncState) (fetched : List Event) (id1 txt1 : String)
    (mids1 : List Nat) (t1 : Nat) (id2 txt2 : String) (mids2 : List Nat)
    (t2 : Nat)
    (h1 : Call.createTweet id1 txt1 mids1 t1 false
      ∈ (run cfg net st0 fetched).2)
    (h2 : Call.createTweet id2 txt2 mids2 t2 true
      ∈ (run cfg net st0 fetched).2)
    (h12 : t1 < t2) :
    t2 ≤ (run cfg net st0 fetched).1.last_synced_timestamp
      ∧ t1 < (run cfg net st0 fetched).1.last_synced_timestamp + 1
      ∧ (∀ fetched2, cfg.npubs.isEmpty = false →
          Call.fetch ((run cfg net st0 fetched).1.last_synced_timestamp + 1)
            ∈ (run cfg net (run cfg net st0 fetched).1 fetched2).2) := by
  have key : t2 ≤ (run cfg net st0 fetched).1.last_synced_timestamp := by
    cases hn : cfg.npubs.isEmpty with
    | true => rw [run_eq_empty_npubs hn] at h2; simp at h2
    | false =>
    cases he : (sortEvents fetched).isEmpty with
    | true =>
      rw [run_eq_no_events hn he] at h2
      have := (preCalls_classify cfg (st0.last_synced_timestamp + 1) _ h2).1
      simp [isTweetCall] at this
    | false =>
      rw [run_eq_main hn he] at h2 ⊢
      rcases List.mem_append.mp h2 with hc | hc
      · have := (preCalls_classify cfg (st0.last_synced_timestamp + 1) _
          hc).1
        simp [isTweetCall] at this
      · exact runFold_tweetTrue_ts (sortEvents fetched)
          ⟨st0, st0.last_synced_timestamp⟩ rfl hc
  refine ⟨key, by omega, ?_⟩
  intro fetched2 hn
  cases he2 : (sortEvents fetched2).isEmpty with
  | true =>
    rw [run_eq_no_events hn he2]
    simp
  | false =>
    rw [run_eq_main hn he2]
    simp

/-- C5 witness: a two-event run where the earlier item fails and the
later one succeeds. -/
theorem C5_witness :
    (Call.createTweet "x1" "hello" [] 1 false
        ∈ (run cfgFull netFailX1 ⟨0, []⟩ [mkEv "x1" 1, mkEv "x2" 2]).2
      ∧ Call.createTweet "x2" "hello" [] 2 true
        ∈ (run cfgFull netFailX1 ⟨0, []⟩ [mkEv "x1" 1, mkEv "x2" 2]).2
      ∧ 1 < 2)
      ∧ 2 ≤ (run cfgFull netFailX1 ⟨0, []⟩
          [mkEv "x1" 1, mkEv "x2" 2]).1.last_synced_timestamp :=
  ⟨⟨by decide, by decide, by decide⟩,
   (C5_failed_item_outside_next_window cfgFull netFailX1 ⟨0, []⟩
     [mkEv "x1" 1, mkEv "x2" 2] "x1" "hello" [] 1 "x2" "hello" [] 2
     (by decide) (by decide) (by decide)).1⟩

/-- C6 counterexample: with a non-empty monitored list but an *empty
relay list* (obtainable from the environment value `","`), the run does
not abort: it proceeds to connect and to fetch.  The claimed fatal abort
on zero configured relays does not exist in the code. -/
theorem C6_counterexample :
    NOSTR_RELAYS_of "," = []
      ∧ MONITORED_NPUBS_of "npub1" = ["npub1"]
      ∧ Call.clientConnect
        ∈ (run ⟨MONITORED_NPUBS_of "npub1", NOSTR_RELAYS_of ",", none, none,
            none, none⟩ netOk ⟨100, []⟩ []).2
      ∧ Call.fetch 101
        ∈ (run ⟨MONITORED_NPUBS_of "npub1", NOSTR_RELAYS_of ",", none, none,
            none, none⟩ netOk ⟨100, []⟩ []).2 := by
  decide

/-- C6 amended: the run aborts before any network call exactly when the
monitored-identity list is empty; with a non-empty monitored list the
run always connects (even when the relay list is empty). -/
theorem C6_abort_only_on_missing_npubs (cfg : Config) (net : Net)
    (st0 : SyncState) (fetched : List Event) :
    (cfg.npubs = [] → run cfg net st0 fetched = (st0, []))
      ∧ (cfg.npubs ≠ [] →
          Call.clientConnect ∈ (run cfg net st0 fetched).2) := by
  constructor
  · intro h
    exact run_eq_empty_npubs (by simp [h])
  · intro h
    have hn : cfg.npubs.isEmpty = false := by
      cases hh : cfg.npubs with
      | nil => exact absurd hh h
      | cons a l => rfl
    cases he : (sortEvents fetched).isEmpty with
    | true => rw [run_eq_no_events hn he]; simp
    | false => rw [run_eq_main hn he]; simp

/-- C6 witness: an empty monitored list aborts with no calls; a
non-empty one connects. -/
theorem C6_witness :
    run ⟨[], ["wss://r1"], none, none, none, none⟩ netOk ⟨0, []⟩ []
        = (⟨0, []⟩, [])
      ∧ Call.clientConnect ∈ (run cfgFull netOk ⟨0, []⟩ []).2 :=
  ⟨(C6_abort_only_on_missing_npubs ⟨[], ["wss://r1"], none, none, none, none⟩
      netOk ⟨0, []⟩ []).1 rfl,
   (C6_abort_only_on_missing_npubs cfgFull netOk ⟨0, []⟩ []).2 (by decide)⟩

/-- C7: when any of the four credentials is missing the run is a pure
dry run — the final in-memory state equals the initial state (so
`synced_event_ids` and `last_synced_timestamp` are untouched) and the
trace contains no media upload, no tweet creation and no state save. -/
theorem C7_dry_run_frame (cfg : Config) (net : Net) (st0 : SyncState)
    (fetched : List Event) (htw : twitterConfigured cfg = false) :
    (run cfg net st0 fetched).1 = st0
      ∧ ∀ c ∈ (run cfg net st0 fetched).2,
          isPublishCall c = false ∧ isSaveCall c = false := by
  cases hn : cfg.npubs.isEmpty with
  | true => rw [run_eq_empty_npubs hn]; exact ⟨rfl, by simp⟩
  | false =>
  cases he : (sortEvents fetched).isEmpty with
  | true =>
    rw [run_eq_no_events hn he]
    refine ⟨rfl, ?_⟩
    intro c hc
    have := preCalls_classify cfg (st0.last_synced_timestamp + 1) c hc
    exact ⟨this.2.2, this.2.1⟩
  | false =>
    rw [run_eq_main hn he]
    rcases runFold_dry htw (sortEvents fetched)
      ⟨st0, st0.last_synced_timestamp⟩ with ⟨hst, htr⟩
    constructor
    · rw [hst]
    · intro c hc
      rcases List.mem_append.mp hc with hcc | hcc
      · have := preCalls_classify cfg (st0.last_synced_timestamp + 1) c hcc
        exact ⟨this.2.2, this.2.1⟩
      · exact htr c hcc

/-- C7 witness: a concrete dry run over one event leaves the checkpoint
untouched. -/
theorem C7_witness :
    twitterConfigured cfgDry = false
      ∧ (run cfgDry netOk ⟨5, ["a"]⟩ [mkEv "x1" 9]).1 = ⟨5, ["a"]⟩ :=
  ⟨by decide,
   (C7_dry_run_frame cfgDry netOk ⟨5, ["a"]⟩ [mkEv "x1" 9] (by decide)).1⟩

/-- C8 counterexample: in the input
`https://a.jpg https://ahttps://a.jpg.jpg` the first token is a URL
token ending in `.jpg`, yet the transformed output text is exactly that
URL: removing the first URL everywhere splices the second token into a
new copy of it, which the later replacement pass never removes.  So "for
every input text containing a URL token ending in `.jpg`, the output
text does not contain that URL" is false. -/
theorem C8_counterexample :
    "https://a.jpg".data
        ∈ findUrls ("https://a.jpg https://ahttps://a.jpg.jpg".data)
      ∧ (".jpg".data).isSuffixOf
          (("https://a.jpg".data).map Char.toLower) = true
      ∧ extract_media_urls ("https://a.jpg https://ahttps://a.jpg.jpg".data)
        = ("https://a.jpg".data,
           ["https://a.jpg".data, "https://ahttps://a.jpg.jpg".data]) := by
  refine ⟨by decide, by decide, by decide⟩

/-- C8 amended: the media list is exactly the matched URL tokens passing
the media test, in match order; a URL ending in `.html` never enters the
media list; when no matched URL is media the output is the input
unchanged with an empty media list; and in the round-trip test the
`.jpg` URL is extracted and removed while the `.html` URL stays in the
text — but, per the counterexample, successive removals can splice a
removed media URL back into the output text, so removal of every
occurrence from the final text is not guaranteed in general. -/
theorem C8_media_extraction :
    (∀ content : List Char,
        (extract_media_urls content).2 = (findUrls content).filter isMediaUrl)
      ∧ (∀ content : List Char, (findUrls content).filter isMediaUrl = [] →
          extract_media_urls content = (content, []))
      ∧ (∀ content url : List Char,
          (".html".data).isSuffixOf (url.map Char.toLower) = true →
          url ∉ (extract_media_urls content).2)
      ∧ extract_media_urls
          ("check https://x.com/pic.jpg and https://x.com/page.html".data)
        = ("check  and https://x.com/page.html".data,
           ["https://x.com/pic.jpg".data]) := by
  refine ⟨extract_media_urls_snd, ?_, ?_, by decide⟩
  · intro content h
    rw [extract_media_urls]
    exact emu_foldl_of_no_media (findUrls content) content [] h
  · intro content url h hm
    rw [extract_media_urls_snd] at hm
    have hmed := (List.mem_filter.mp hm).2
    rw [html_not_media h] at hmed
    exact absurd hmed (by decide)

/-- C8 witness: concrete inputs discharging the hypotheses of the
amended statement — a no-URL text is returned unchanged, and a `.html`
URL never enters the media list. -/
theorem C8_witness :
    ((findUrls ("no links here".data)).filter isMediaUrl = []
        ∧ extract_media_urls ("no links here".data)
          = ("no links here".data, []))
      ∧ ((".html".data).isSuffixOf
            (("https://x.com/page.html".data).map Char.toLower) = true
          ∧ "https://x.com/page.html".data
            ∉ (extract_media_urls ("see https://x.com/page.html".data)).2) :=
  ⟨⟨by decide, C8_media_extraction.2.1 _ (by decide)⟩,
   ⟨by decide, C8_media_extraction.2.2.1 _ _ (by decide)⟩⟩

/-- C9 counterexample: the media test is a suffix test on the *whole*
URL string, not on its path, so `https://a.com/x.jpg?s=1` — whose path
ends in `.jpg` but which carries a query string — is NOT classified as
media: it is neither extracted nor removed.  The claim that such a URL
is classified as media is false on the code. -/
theorem C9_counterexample :
    "https://a.com/x.jpg?s=1".data
        ∈ findUrls ("see https://a.com/x.jpg?s=1".data)
      ∧ isMediaUrl ("https://a.com/x.jpg?s=1".data) = false
      ∧ extract_media_urls ("see https://a.com/x.jpg?s=1".data)
        = ("see https://a.com/x.jpg?s=1".data, []) := by
  refine ⟨by decide, by decide, by decide⟩

/-- C9 amended: a URL is classified as media exactly when the lowercased
*full URL string* ends in one of the six fixed extensions; the
comparison is case-insensitive, every matched URL classified as media
reaches the media list, and a URL with a query string after a media
extension (or ending in `.html`) is not classified as media. -/
theorem C9_suffix_classification :
    (∀ (url : List Char) (ext : String), ext ∈ MEDIA_EXTENSIONS →
        ext.data.isSuffixOf (url.map Char.toLower) = true →
        isMediaUrl url = true)
      ∧ (∀ content url : List Char, url ∈ findUrls content →
          isMediaUrl url = true → url ∈ (extract_media_urls content).2)
      ∧ isMediaUrl ("https://a.com/x.JPG".data) = true
      ∧ isMediaUrl ("https://a.com/x.jpg?s=1".data) = false
      ∧ isMediaUrl ("https://a.com/page.html".data) = false := by
  refine ⟨?_, ?_, by decide, by decide, by decide⟩
  · intro url ext hmem hsuf
    rw [isMediaUrl, List.any_eq_true]
    exact ⟨ext, hmem, hsuf⟩
  · intro content url hf hm
    rw [extract_media_urls_snd]
    exact List.mem_filter.mpr ⟨hf, hm⟩

/-- C9 witness: concrete instances of the amended classification. -/
theorem C9_witness :
    ((".jpg" ∈ MEDIA_EXTENSIONS
        ∧ (".jpg".data).isSuffixOf
            (("https://b.co/i.JPG".data).map Char.toLower) = true)
        ∧ isMediaUrl ("https://b.co/i.JPG".data) = true)
      ∧ ("https://b.co/i.jpg".data ∈ findUrls ("go https://b.co/i.jpg".data)
          ∧ "https://b.co/i.jpg".data
            ∈ (extract_media_urls ("go https://b.co/i.jpg".data)).2) :=
  ⟨⟨⟨by decide, by decide⟩,
    C9_suffix_classification.1 ("https://b.co/i.JPG".data) ".jpg" (by decide)
      (by decide)⟩,
   ⟨by decide,
    C9_suffix_classification.2.1 ("go https://b.co/i.jpg".data)
      ("https://b.co/i.jpg".data) (by decide) (by decide)⟩⟩

/-- C10 counterexample: with 1000 fresh items publishing successfully
between the two occurrences of id `dup` in one batch, the first
occurrence's id is evicted by the 1000-cap truncation of `save_state`,
so the later occurrence is *not* skipped: a second tweet creation for
`dup` is attempted in the same run.  "Every later occurrence is skipped"
is therefore false as stated. -/
theorem C10_counterexample :
    Call.createTweet "dup" "" [] 0 true
        ∈ (processEvent cfgFull netOk ⟨⟨0, []⟩, 0⟩ dupFirst).2
      ∧ Call.createTweet "dup" "" [] 1001 true
        ∈ (processEvent cfgFull netOk
            (runFold cfgFull netOk ⟨⟨0, []⟩, 0⟩ (dupFirst :: batchEvents)).1
            dupLater).2 := by
  constructor
  · decide
  · have hids := c10_prefix_ids
    have hc : ((runFold cfgFull netOk ⟨⟨0, []⟩, 0⟩
        (dupFirst :: batchEvents)).1).state.synced_event_ids.contains
          dupLater.id = false := by
      rw [hids]
      apply contains_false
      intro hm
      obtain ⟨n, -, hn⟩ := List.mem_map.mp hm
      exact mkId_ne_dup n hn
    have hpe := processEvent_succ hc
      (show isReply dupLater = false by decide)
      (show twitterConfigured cfgFull = true by decide)
      (show netOk.tweet dupLater.id = true by rfl)
    rw [hpe]
    refine List.mem_append.mpr (Or.inr (List.mem_cons.mpr (Or.inl ?_)))
    decide

/-- C10 amended: on a successful publish the id is appended to the live
`synced_event_ids` immediately, and any event examined while its id is
in the live list is skipped with no calls at all — so a later duplicate
occurrence is suppressed as long as the id has not been evicted by the
1000-cap (the counterexample shows eviction defeats it); the suppression
indeed does not hold in dry-run mode (both occurrences reach the dry-run
branch) nor after a publish failure (both occurrences attempt a tweet). -/
theorem C10_within_batch_dedup :
    (∀ (cfg : Config) (net : Net) (ls : LoopSt) (e : Event),
        twitterConfigured cfg = true → net.tweet e.id = true →
        ls.state.synced_event_ids.contains e.id = false →
        isReply e = false →
        e.id ∈ (processEvent cfg net ls e).1.state.synced_event_ids)
      ∧ (∀ (cfg : Config) (net : Net) (ls : LoopSt) (e : Event),
          ls.state.synced_event_ids.contains e.id = true →
          processEvent cfg net ls e = (ls, []))
      ∧ (run cfgDry netOk ⟨0, []⟩ [mkEv "dup" 1, mkEv "dup" 2]).2.countP
          (fun c => decide (c = Call.dryRun "dup")) = 2
      ∧ (run cfgFull netFail ⟨0, []⟩ [mkEv "dup" 1, mkEv "dup" 2]).2.countP
          isTweetCall = 2 := by
  refine ⟨?_, ?_, by decide, by decide⟩
  · intro cfg net ls e htw hok hc hr
    rw [processEvent_succ hc hr htw hok]
    show e.id ∈ (recordPublished ls.state ls.newLastTs e.id
      e.created_at).1.synced_event_ids
    rw [recordPublished_ids]
    exact mem_takeLast_append_singleton (by omega) _ _
  · intro cfg net ls e hc
    exact processEvent_skip hc

/-- C10 witness: a concrete successful publish records the id at once,
and a concrete duplicate in the live list is skipped. -/
theorem C10_witness :
    (twitterConfigured cfgFull = true
        ∧ netOk.tweet (mkEv "dup" 1).id = true
        ∧ (⟨⟨0, []⟩, 0⟩ : LoopSt).state.synced_event_ids.contains
            (mkEv "dup" 1).id = false
        ∧ isReply (mkEv "dup" 1) = false)
      ∧ (mkEv "dup" 1).id
        ∈ (processEvent cfgFull netOk ⟨⟨0, []⟩, 0⟩
            (mkEv "dup" 1)).1.state.synced_event_ids
      ∧ processEvent cfgFull netOk ⟨⟨5, ["dup"]⟩, 5⟩ (mkEv "dup" 9)
        = (⟨⟨5, ["dup"]⟩, 5⟩, []) :=
  ⟨⟨by decide, by decide, by decide, by decide⟩,
   C10_within_batch_dedup.1 cfgFull netOk ⟨⟨0, []⟩, 0⟩ (mkEv "dup" 1)
     (by decide) (by decide) (by decide) (by decide),
   C10_within_batch_dedup.2.1 cfgFull netOk ⟨⟨5, ["dup"]⟩, 5⟩ (mkEv "dup" 9)
     (by decide)⟩

end Claims

end NostrX
